import Mathlib

/-!
Shallow embedding of `src/main.rs` of read-osm-rs: a one-shot OSM cycling
router.  Node identifiers (Rust `NodeId(i64)`) are `Int`; `f64` meter
weights are `ℚ` (exact stand-ins for the finite float values the program
manipulates); the Rust `HashMap`s are association lists with the same
lookup/insert semantics; the `BinaryHeap<Reverse<(u64, NodeId)>>` frontier
is a list popped at its lexicographic minimum, which is exactly the order
the Rust heap delivers.
-/

deriving instance DecidableEq for Except

namespace ReadOsm

/-- First-match association-list lookup: the semantics of both the Rust
`Tags` map (unique keys) and `HashMap` lookups used by the program. -/
def lookupKV {α β : Type} [DecidableEq α] : List (α × β) → α → Option β
  | [], _ => none
  | (k, v) :: rest, x => if k = x then some v else lookupKV rest x

/-- Key list of an association list. -/
def keysOf {α β : Type} (l : List (α × β)) : List α := l.map Prod.fst

/-- Tag set of an OSM object: string key/value pairs with unique keys. -/
abbrev Tags : Type := List (String × String)

/-- `way.tags.contains(key, value)` from osmpbfreader: the value bound to
`key`, if any, equals `value`. -/
def tagContains (tags : Tags) (k v : String) : Bool :=
  decide (lookupKV tags k = some v)

/-- An OSM way as the program consumes it: its tags and its ordered node
identifier sequence (`src/main.rs`, `osmpbfreader::Way`). -/
structure Way where
  tags : Tags
  nodes : List Int
deriving DecidableEq

/-- `INACCESSIBLE_TAGS` from `src/main.rs` lines 19-28, verbatim,
including the repeated `("access", "delivery")` entry. -/
def INACCESSIBLE_TAGS : List (String × String) :=
  [("highway", "motorway"),
   ("highway", "motorway_link"),
   ("access", "agricultural"),
   ("access", "delivery"),
   ("access", "forestry"),
   ("access", "delivery"),
   ("access", "use_sidepath")]

/-- `is_cyclable_way` from `src/main.rs` lines 41-53. -/
def is_cyclable_way (w : Way) : Bool :=
  ((lookupKV w.tags "highway").isSome)
  && ((!(lookupKV w.tags "surface").isSome)
      || tagContains w.tags "surface" "paved"
      || tagContains w.tags "surface" "asphalt"
      || tagContains w.tags "surface" "concrete"
      || tagContains w.tags "surface" "paving_stones")
  && (INACCESSIBLE_TAGS.all (fun p => !tagContains w.tags p.1 p.2))

/-- Adjacency structure: the Rust `HashMap<NodeId, Vec<(NodeId, f64)>>`,
as an association list from node id to its ordered outgoing edge vector. -/
abbrev AdjMap : Type := List (Int × List (Int × ℚ))

/-- `adj_list.entry(u).or_insert(Vec::new()).push(e)`: append `e` to the
vector bound to `u`, creating the binding if absent. -/
def pushEdge : AdjMap → Int → (Int × ℚ) → AdjMap
  | [], u, e => [(u, [e])]
  | (k, es) :: rest, u, e =>
    if k = u then (k, es ++ [e]) :: rest else (k, es) :: pushEdge rest u e

/-- The edge vector bound to `u` (empty when `u` is not a key); iterating
`adj_list[&current]` behind a `contains_key` guard is iterating this list,
since a missing key and an empty vector expand identically. -/
def adjOf (m : AdjMap) (u : Int) : List (Int × ℚ) := (lookupKV m u).getD []

/-- `tuple_windows`: the consecutive pairs of a list. -/
def windows2 {α : Type} : List α → List (α × α)
  | a :: b :: rest => (a, b) :: windows2 (b :: rest)
  | _ => []

/-- `!way.tags.contains("oneway", "yes")` (`src/main.rs` line 112). -/
def isBidirectional (tags : Tags) : Bool := !tagContains tags "oneway" "yes"

/-- `node_ids.insert(x)` on the Rust `HashSet`, modelled as
membership-avoiding append (only membership in the set is ever read). -/
def insertNew (l : List Int) (x : Int) : List Int :=
  if x ∈ l then l else l ++ [x]

/-- One consecutive pair `(u, v)` of a way (`src/main.rs` lines 113-124):
record both endpoints as referenced, push the forward edge `u → v` with the
great-circle edge length `d u v`, and, when the way is bidirectional, also
the backward edge `v → u` with the same length.  `d` stands for the
haversine distance between the two nodes' coordinates, computed by the
external geo library from the node table. -/
def buildStep (d : Int → Int → ℚ) (bidir : Bool)
    (s : List Int × AdjMap) (p : Int × Int) : List Int × AdjMap :=
  (insertNew (insertNew s.1 p.1) p.2,
   let el := d p.1 p.2
   let m1 := pushEdge s.2 p.1 (p.2, el)
   if bidir then pushEdge m1 p.2 (p.1, el) else m1)

/-- Process one accepted way (`src/main.rs` lines 111-125). -/
def buildWay (d : Int → Int → ℚ) (s : List Int × AdjMap) (w : Way) :
    List Int × AdjMap :=
  (windows2 w.nodes).foldl (buildStep d (isBidirectional w.tags)) s

/-- Process all accepted ways starting from the empty referenced-id set
and empty adjacency map (`src/main.rs` lines 110-125): returns
`(node_ids, adj_list)`. -/
def buildGraph (d : Int → Int → ℚ) (ways : List Way) : List Int × AdjMap :=
  ways.foldl (buildWay d) ([], [])

/-- Node table: node id to (longitude, latitude), the fields of the Rust
`Node` records the program reads. -/
abbrev NodeTable : Type := List (Int × (ℚ × ℚ))

/-- `nodes.into_iter().filter(|(id, _)| node_ids.contains(id)).collect()`
(`src/main.rs` lines 127-130). -/
def pruneNodes (nt : NodeTable) (ids : List Int) : NodeTable :=
  nt.filter (fun p => decide (p.1 ∈ ids))

/-- Outgoing edges at `x` contributed by one consecutive pair `(u, v)`,
written from the spec (§4.2 step 3): the forward edge `u → v` weighted
`d u v`, and, when bidirectional, also the backward edge `v → u` with the
same weight. -/
def windowContrib (d : Int → Int → ℚ) (b : Bool) (p : Int × Int)
    (x : Int) : List (Int × ℚ) :=
  (if p.1 = x then [(p.2, d p.1 p.2)] else [])
  ++ (if b = true ∧ p.2 = x then [(p.1, d p.1 p.2)] else [])

/-- Specification-side description of the adjacency structure, written
from the spec (§4.2 steps 2-3 and the C5 sentence): for each accepted way
and each consecutive pair of its node sequence, the pair's forward edge
and, unless the way is tagged `oneway=yes`, its backward edge.  To be
compared with `buildGraph`. -/
def specAdj (d : Int → Int → ℚ) (ways : List Way) (x : Int) :
    List (Int × ℚ) :=
  ways.flatMap (fun w =>
    (windows2 w.nodes).flatMap (fun p =>
      windowContrib d (isBidirectional w.tags) p x))

/-- `(edge_len * 1000.0).round() as u64` (`src/main.rs` line 165): meters
to integer millimeters, rounding, clamped at zero by the unsigned cast.
Written as an explicit integer floor division of
`⌊w * 1000 + 1/2⌋` so that concrete runs reduce in the kernel; the lemma
`millis_eq_round` below proves it equal to `(round (w * 1000)).toNat`. -/
def millis (w : ℚ) : ℕ :=
  ((2 * w.num * 1000 + (w.den : ℤ)) / (2 * (w.den : ℤ))).toNat

/-- Heap order of `Reverse((u64, NodeId))`: `BinaryHeap::pop` returns the
lexicographically least `(distance, node)` entry. -/
def entLe (a b : ℕ × Int) : Bool :=
  decide (a.1 < b.1) || (decide (a.1 = b.1) && decide (a.2 ≤ b.2))

/-- Least entry of the frontier under `entLe` (`none` iff empty). -/
def findMin : List (ℕ × Int) → Option (ℕ × Int)
  | [] => none
  | e :: rest =>
    match findMin rest with
    | none => some e
    | some m => if entLe e m then some e else some m

/-- Remove the first occurrence of a value from the frontier list. -/
def removeEntry : List (ℕ × Int) → (ℕ × Int) → List (ℕ × Int)
  | [], _ => []
  | e :: rest, m => if e = m then rest else e :: removeEntry rest m

/-- `queue.pop()`: the least entry and the remaining frontier. -/
def popMin (q : List (ℕ × Int)) : Option ((ℕ × Int) × List (ℕ × Int)) :=
  match findMin q with
  | none => none
  | some m => some (m, removeEntry q m)

/-- How the search loop ends: the goal was popped (with its cumulative
millimeter distance), the frontier emptied, or the step budget ran out
(the Rust loop has no budget; enough fuel always exists since every node
is pushed at most once). -/
inductive SearchOutcome where
  | goalReached (dist : ℕ)
  | exhausted
  | fuelOut
deriving DecidableEq

/-- Result of the search loop, with ghost instrumentation: `pushes` lists
every frontier entry pushed by the loop body and `pops` every entry
popped, in order; neither influences `outcome` or `parent`. -/
structure SearchRes where
  outcome : SearchOutcome
  parent : List (Int × Int)
  pushes : List (ℕ × Int)
  pops : List (ℕ × Int)
deriving DecidableEq

/-- The inner `for (neighbor, edge_len) in &adj_list[&current]` loop
(`src/main.rs` lines 160-169): skip neighbors that already have a parent;
otherwise push `(dist + millis edge_len, neighbor)` and record
`parent[neighbor] = current`.  Returns the new frontier, the new parent
map, and the entries pushed. -/
def relaxAll (dist : ℕ) (current : Int) :
    List (Int × ℚ) → List (ℕ × Int) → List (Int × Int) →
    List (ℕ × Int) × List (Int × Int) × List (ℕ × Int)
  | [], q, p => (q, p, [])
  | (v, w) :: rest, q, p =>
    if (lookupKV p v).isSome then relaxAll dist current rest q p
    else
      let e := (dist + millis w, v)
      let r := relaxAll dist current rest (q ++ [e]) ((v, current) :: p)
      (r.1, r.2.1, e :: r.2.2)

/-- The `while let Some(Reverse((dist, current))) = queue.pop()` loop
(`src/main.rs` lines 147-170), fuel-indexed: pop the least entry, stop
when it is the goal, otherwise expand its adjacency list (a node absent
from `adj_list` has the empty edge list, which expands to nothing, exactly
like the `contains_key` guard's `continue`). -/
def searchLoop (adj : Int → List (Int × ℚ)) (goal : Int) :
    ℕ → List (ℕ × Int) → List (Int × Int) → SearchRes
  | 0, _, p => ⟨SearchOutcome.fuelOut, p, [], []⟩
  | Nat.succ fuel, q, p =>
    match popMin q with
    | none => ⟨SearchOutcome.exhausted, p, [], []⟩
    | some (e, rest) =>
      if e.2 = goal then ⟨SearchOutcome.goalReached e.1, p, [], [e]⟩
      else
        let r := relaxAll e.1 e.2 (adj e.2) rest p
        let s := searchLoop adj goal fuel r.1 r.2.1
        ⟨s.outcome, s.parent, r.2.2 ++ s.pushes, e :: s.pops⟩

/-- The whole search (`src/main.rs` lines 143-170): seed the frontier with
`(0, source)`, set the source's parent to the sentinel `-1`
(`NodeId(-1)`), and run the loop.  The seed push is prepended to the push
trace. -/
def mainSearch (adj : Int → List (Int × ℚ)) (source goal : Int)
    (fuel : ℕ) : SearchRes :=
  let r := searchLoop adj goal fuel [(0, source)] [(source, -1)]
  ⟨r.outcome, r.parent, (0, source) :: r.pushes, r.pops⟩

/-- How the backward route walk can fail: reading an absent parent entry
(the Rust `parent[&cur_id]` index panics) or running out of fuel (the Rust
loop spins forever on a parent cycle). -/
inductive WalkErr where
  | panicAbsent
  | fuelOut
deriving DecidableEq

/-- The route reconstruction walk (`src/main.rs` lines 172-184) at the
level of node identifiers: from the goal, follow parent links until the
source, then return the identifiers in source-to-goal order.  The walk is
attempted unconditionally after the search loop. -/
def walkBack (parent : List (Int × Int)) (source : Int) :
    ℕ → Int → Except WalkErr (List Int)
  | 0, _ => Except.error WalkErr.fuelOut
  | Nat.succ fuel, cur =>
    if cur = source then Except.ok [cur]
    else
      match lookupKV parent cur with
      | none => Except.error WalkErr.panicAbsent
      | some pr =>
        match walkBack parent source fuel pr with
        | Except.ok l => Except.ok (l ++ [cur])
        | Except.error e => Except.error e

/-- Millimeter cost of an explicit node path through `adj`, summing the
same `millis` increments the search uses (first matching parallel edge);
`none` when some step has no edge. -/
def pathCost (adj : Int → List (Int × ℚ)) : List Int → Option ℕ
  | [] => some 0
  | [_] => some 0
  | u :: v :: rest =>
    match (adj u).find? (fun e => decide (e.1 = v)) with
    | none => none
    | some e =>
      match pathCost adj (v :: rest) with
      | none => none
      | some c => some (millis e.2 + c)

/-- Modelled from the spec (§3 invariants, §6: serde_json persistence of
the adjacency `HashMap`, which is repository-external library code): the
serialized artifact holds the same id-to-edge-vector bindings with their
raw meter weights, in the unspecified order the map iterates; modelled as
the key-sorted association list. -/
def encodeCache (m : AdjMap) : AdjMap :=
  List.insertionSort (fun a b => a.1 ≤ b.1) m

/-- Modelled from the spec (§6): reading the cache artifact rebuilds the
map from the serialized bindings unchanged. -/
def decodeCache (m : AdjMap) : AdjMap := m

/-- Modelled from the spec (§6): serde_json persistence of the node
table, as for `encodeCache`. -/
def encodeNodes (nt : NodeTable) : NodeTable :=
  List.insertionSort (fun a b => a.1 ≤ b.1) nt

/-- Modelled from the spec (§6): reading the node-table artifact. -/
def decodeNodes (nt : NodeTable) : NodeTable := nt

/-- Ways the remote fetch attempt can go (`download_pbf`,
`src/main.rs` lines 33-39): the GET request fails before the local file is
created; creating the local file fails; copying the body fails after the
file exists (a partial file is left); or everything succeeds. -/
inductive FetchOutcome where
  | reqError
  | createError
  | copyError
  | success
deriving DecidableEq

/-- Errors the fetch path can surface. -/
inductive FetchErr where
  | fetchFailed
  | writeFailed
  | removeNotFound
deriving DecidableEq

/-- `download_pbf` (`src/main.rs` lines 33-39) over the model: returns
whether a file exists at `pbf_path` afterwards, and the result. -/
def download_pbf : FetchOutcome → Bool × Except FetchErr Unit
  | FetchOutcome.reqError => (false, Except.error FetchErr.fetchFailed)
  | FetchOutcome.createError => (false, Except.error FetchErr.writeFailed)
  | FetchOutcome.copyError => (true, Except.error FetchErr.writeFailed)
  | FetchOutcome.success => (true, Except.ok ())

/-- The caller's guard (`src/main.rs` lines 68-73): if the file is absent,
download; on a download error run `fs::remove_file(pbf_path)?` and then
re-raise the download error — so when no file exists the remove itself
fails and its NotFound error is the one propagated.  Returns whether a
file exists afterwards and the surfaced result. -/
def fetchStep (exists0 : Bool) (o : FetchOutcome) :
    Bool × Except FetchErr Unit :=
  if exists0 then (true, Except.ok ())
  else
    let r := download_pbf o
    match r.2 with
    | Except.ok () => (r.1, Except.ok ())
    | Except.error e =>
      if r.1 then (false, Except.error e)
      else (false, Except.error FetchErr.removeNotFound)

/-- Concrete four-node graph: edges 0→1 (1 m), 0→2 (10 m), 1→2 (1 m),
2→3 (1 m). -/
def cexAdj : Int → List (Int × ℚ) := fun u =>
  if u = 0 then [(1, 1), (2, 10)]
  else if u = 1 then [(2, 1)]
  else if u = 2 then [(3, 1)]
  else []

/-- Concrete disconnected graph: single edge 0→1 (1 m); node 5 is
unreachable from 0. -/
def adjDisc : Int → List (Int × ℚ) := fun u =>
  if u = 0 then [(1, 1)] else []

/-- Concrete constant distance function for witnesses. -/
def d0 : Int → Int → ℚ := fun _ _ => 1

/-- Concrete accepted-way list: one untagged two-node way 7-8. -/
def ways1 : List Way := [⟨[], [7, 8]⟩]

/-- Concrete raw node table: nodes 7 and 8 (on the way) and 9 (not on any
way). -/
def nt1 : NodeTable := [(7, (0, 0)), (8, (0, 1)), (9, (5, 5))]


theorem millis_eq_round (w : ℚ) : millis w = (round (w * 1000)).toNat := by
  unfold millis
  rw [round_eq]
  congr 1
  have hd : ((w.den : ℚ)) ≠ 0 := Nat.cast_ne_zero.mpr w.den_nz
  have hnum : (w.num : ℚ) = w * w.den := by
    field_simp [Rat.num_div_den]
  have h : w * 1000 + 1 / 2
      = (((2 * w.num * 1000 + (w.den : ℤ) : ℤ) : ℚ)) / (((2 * w.den : ℕ) : ℚ)) := by
    push_cast
    field_simp
    rw [hnum]
    ring
  rw [h, Rat.floor_intCast_div_natCast]
  push_cast
  ring_nf

theorem lookupKV_filter_ne {α β : Type} [DecidableEq α] (l : List (α × β)) (k : α) :
    lookupKV (l.filter (fun p => decide (p.1 ≠ k))) k = none := by
  induction l with
  | nil => rfl
  | cons e rest ih =>
    by_cases h : e.1 = k
    · simpa [List.filter, h] using ih
    · simpa [List.filter, h, lookupKV] using ih

theorem adjOf_nil (x : Int) : adjOf [] x = [] := rfl

theorem adjOf_pushEdge (m : AdjMap) (u x : Int) (e : Int × ℚ) :
    adjOf (pushEdge m u e) x = if u = x then adjOf m x ++ [e] else adjOf m x := by
  induction m with
  | nil =>
    by_cases h : u = x <;> simp [pushEdge, adjOf, lookupKV, h]
  | cons kv rest ih =>
    obtain ⟨k, es⟩ := kv
    by_cases hk : k = u
    · subst hk
      by_cases hx : k = x <;> simp [pushEdge, adjOf, lookupKV, hx]
    · by_cases hx : k = x
      · subst hx
        have hux : ¬(u = k) := fun h => hk h.symm
        simp [pushEdge, hk, adjOf, lookupKV, hux]
      · simp only [pushEdge, if_neg hk]
        simp only [adjOf, lookupKV, if_neg hx] at ih ⊢
        rw [ih]

theorem mem_keys_pushEdge (m : AdjMap) (u x : Int) (e : Int × ℚ) :
    x ∈ keysOf (pushEdge m u e) ↔ x ∈ keysOf m ∨ x = u := by
  induction m with
  | nil => simp [pushEdge, keysOf, eq_comm]
  | cons kv rest ih =>
    obtain ⟨k, es⟩ := kv
    by_cases hk : k = u
    · subst hk
      simp [pushEdge, keysOf]
      tauto
    · simp only [pushEdge, if_neg hk, keysOf, List.map_cons, List.mem_cons]
      simp only [keysOf] at ih
      rw [ih]
      tauto


theorem adjOf_buildStep (d : Int → Int → ℚ) (b : Bool) (s : List Int × AdjMap)
    (p : Int × Int) (x : Int) :
    adjOf (buildStep d b s p).2 x = adjOf s.2 x ++ windowContrib d b p x := by
  cases b with
  | false =>
    show adjOf (pushEdge s.2 p.1 (p.2, d p.1 p.2)) x = _
    rw [adjOf_pushEdge]
    by_cases h1 : p.1 = x <;> simp [windowContrib, h1]
  | true =>
    show adjOf (pushEdge (pushEdge s.2 p.1 (p.2, d p.1 p.2)) p.2 (p.1, d p.1 p.2)) x = _
    rw [adjOf_pushEdge, adjOf_pushEdge]
    by_cases h1 : p.1 = x <;> by_cases h2 : p.2 = x <;> simp [windowContrib, h1, h2]

theorem ids_buildStep (d : Int → Int → ℚ) (b : Bool) (s : List Int × AdjMap)
    (p : Int × Int) :
    (buildStep d b s p).1 = insertNew (insertNew s.1 p.1) p.2 := rfl

theorem adjOf_foldl_buildStep (d : Int → Int → ℚ) (b : Bool)
    (ps : List (Int × Int)) (x : Int) :
    ∀ s : List Int × AdjMap,
      adjOf (ps.foldl (buildStep d b) s).2 x
        = adjOf s.2 x ++ ps.flatMap (fun p => windowContrib d b p x) := by
  induction ps with
  | nil => intro s; simp
  | cons p rest ih =>
    intro s
    simp only [List.foldl_cons, List.flatMap_cons]
    rw [ih, adjOf_buildStep, List.append_assoc]

theorem adjOf_buildWay (d : Int → Int → ℚ) (s : List Int × AdjMap)
    (w : Way) (x : Int) :
    adjOf (buildWay d s w).2 x
      = adjOf s.2 x
        ++ (windows2 w.nodes).flatMap
             (fun p => windowContrib d (isBidirectional w.tags) p x) := by
  unfold buildWay
  rw [adjOf_foldl_buildStep]

theorem adjOf_foldl_buildWay (d : Int → Int → ℚ) (ways : List Way) (x : Int) :
    ∀ s : List Int × AdjMap,
      adjOf (ways.foldl (buildWay d) s).2 x = adjOf s.2 x ++ specAdj d ways x := by
  induction ways with
  | nil => intro s; simp [specAdj]
  | cons w rest ih =>
    intro s
    simp only [List.foldl_cons, specAdj, List.flatMap_cons]
    rw [ih, adjOf_buildWay, List.append_assoc]
    rfl

theorem adjOf_buildGraph (d : Int → Int → ℚ) (ways : List Way) (x : Int) :
    adjOf (buildGraph d ways).2 x = specAdj d ways x := by
  unfold buildGraph
  rw [adjOf_foldl_buildWay]
  rfl

theorem mem_insertNew (l : List Int) (y x : Int) :
    x ∈ insertNew l y ↔ x ∈ l ∨ x = y := by
  unfold insertNew
  by_cases h : y ∈ l
  · simp only [if_pos h]
    constructor
    · tauto
    · rintro (hx | rfl) <;> [exact hx; exact h]
  · simp [if_neg h]

theorem mem_ids_foldl_buildStep (d : Int → Int → ℚ) (b : Bool)
    (ps : List (Int × Int)) (x : Int) :
    ∀ s : List Int × AdjMap,
      x ∈ (ps.foldl (buildStep d b) s).1
        ↔ x ∈ s.1 ∨ ∃ p ∈ ps, x = p.1 ∨ x = p.2 := by
  induction ps with
  | nil => intro s; simp
  | cons p rest ih =>
    intro s
    simp only [List.foldl_cons, List.mem_cons]
    rw [ih]
    rw [ids_buildStep, mem_insertNew, mem_insertNew]
    constructor
    · rintro (((h | h) | h) | ⟨q, hq, h⟩)
      · exact Or.inl h
      · exact Or.inr ⟨p, Or.inl rfl, Or.inl h⟩
      · exact Or.inr ⟨p, Or.inl rfl, Or.inr h⟩
      · exact Or.inr ⟨q, Or.inr hq, h⟩
    · rintro (h | ⟨q, (rfl | hq), h⟩)
      · exact Or.inl (Or.inl (Or.inl h))
      · rcases h with h | h
        · exact Or.inl (Or.inl (Or.inr h))
        · exact Or.inl (Or.inr h)
      · exact Or.inr ⟨q, hq, h⟩

theorem mem_ids_buildGraph (d : Int → Int → ℚ) (ways : List Way) (x : Int) :
    x ∈ (buildGraph d ways).1
      ↔ ∃ w ∈ ways, ∃ p ∈ windows2 w.nodes, x = p.1 ∨ x = p.2 := by
  unfold buildGraph
  have main : ∀ s : List Int × AdjMap,
      x ∈ (ways.foldl (buildWay d) s).1
        ↔ x ∈ s.1 ∨ ∃ w ∈ ways, ∃ p ∈ windows2 w.nodes, x = p.1 ∨ x = p.2 := by
    induction ways with
    | nil => intro s; simp
    | cons w rest ih =>
      intro s
      simp only [List.foldl_cons, List.mem_cons]
      rw [ih]
      unfold buildWay
      rw [mem_ids_foldl_buildStep]
      constructor
      · rintro ((h | ⟨p, hp, h⟩) | ⟨w2, hw2, hp⟩)
        · exact Or.inl h
        · exact Or.inr ⟨w, Or.inl rfl, p, hp, h⟩
        · exact Or.inr ⟨w2, Or.inr hw2, hp⟩
      · rintro (h | ⟨w2, (rfl | hw2), p, hp, h⟩)
        · exact Or.inl (Or.inl h)
        · exact Or.inl (Or.inr ⟨p, hp, h⟩)
        · exact Or.inr ⟨w2, hw2, p, hp, h⟩
  rw [main]
  simp

theorem mem_keys_buildStep (d : Int → Int → ℚ) (b : Bool)
    (s : List Int × AdjMap) (p : Int × Int) (x : Int) :
    x ∈ keysOf (buildStep d b s p).2
      ↔ x ∈ keysOf s.2 ∨ x = p.1 ∨ (b = true ∧ x = p.2) := by
  cases b with
  | false =>
    show x ∈ keysOf (pushEdge s.2 p.1 (p.2, d p.1 p.2)) ↔ _
    rw [mem_keys_pushEdge]
    simp
  | true =>
    show x ∈ keysOf (pushEdge (pushEdge s.2 p.1 (p.2, d p.1 p.2)) p.2 (p.1, d p.1 p.2)) ↔ _
    rw [mem_keys_pushEdge, mem_keys_pushEdge]
    simp only [true_and]
    tauto

theorem mem_keys_foldl_buildStep (d : Int → Int → ℚ) (b : Bool)
    (ps : List (Int × Int)) (x : Int) :
    ∀ s : List Int × AdjMap,
      x ∈ keysOf (ps.foldl (buildStep d b) s).2
        ↔ x ∈ keysOf s.2 ∨ ∃ p ∈ ps, x = p.1 ∨ (b = true ∧ x = p.2) := by
  induction ps with
  | nil => intro s; simp
  | cons p rest ih =>
    intro s
    simp only [List.foldl_cons, List.mem_cons]
    rw [ih, mem_keys_buildStep]
    constructor
    · rintro ((h | h) | ⟨q, hq, h⟩)
      · exact Or.inl h
      · exact Or.inr ⟨p, Or.inl rfl, h⟩
      · exact Or.inr ⟨q, Or.inr hq, h⟩
    · rintro (h | ⟨q, (rfl | hq), h⟩)
      · exact Or.inl (Or.inl h)
      · exact Or.inl (Or.inr h)
      · exact Or.inr ⟨q, hq, h⟩

theorem mem_keys_buildGraph (d : Int → Int → ℚ) (ways : List Way) (x : Int) :
    x ∈ keysOf (buildGraph d ways).2
      ↔ ∃ w ∈ ways, ∃ p ∈ windows2 w.nodes,
          x = p.1 ∨ (isBidirectional w.tags = true ∧ x = p.2) := by
  unfold buildGraph
  have main : ∀ s : List Int × AdjMap,
      x ∈ keysOf (ways.foldl (buildWay d) s).2
        ↔ x ∈ keysOf s.2
          ∨ ∃ w ∈ ways, ∃ p ∈ windows2 w.nodes,
              x = p.1 ∨ (isBidirectional w.tags = true ∧ x = p.2) := by
    induction ways with
    | nil => intro s; simp
    | cons w rest ih =>
      intro s
      simp only [List.foldl_cons, List.mem_cons]
      rw [ih]
      unfold buildWay
      rw [mem_keys_foldl_buildStep]
      constructor
      · rintro ((h | ⟨p, hp, h⟩) | ⟨w2, hw2, hp⟩)
        · exact Or.inl h
        · exact Or.inr ⟨w, Or.inl rfl, p, hp, h⟩
        · exact Or.inr ⟨w2, Or.inr hw2, hp⟩
      · rintro (h | ⟨w2, (rfl | hw2), p, hp, h⟩)
        · exact Or.inl (Or.inl h)
        · exact Or.inl (Or.inr ⟨p, hp, h⟩)
        · exact Or.inr ⟨w2, hw2, p, hp, h⟩
  rw [main]
  simp [keysOf]


theorem mem_windowContrib (d : Int → Int → ℚ) (b : Bool) (p : Int × Int)
    (u v : Int) (wt : ℚ) :
    (v, wt) ∈ windowContrib d b p u
      ↔ (p.1 = u ∧ v = p.2 ∧ wt = d p.1 p.2)
        ∨ (b = true ∧ p.2 = u ∧ v = p.1 ∧ wt = d p.1 p.2) := by
  unfold windowContrib
  by_cases h1 : p.1 = u <;> by_cases hb : b = true <;> by_cases h2 : p.2 = u <;>
    simp [h1, hb, h2, Prod.ext_iff]

theorem mem_keys_pruneNodes (nt : NodeTable) (ids : List Int) (x : Int) :
    x ∈ keysOf (pruneNodes nt ids) ↔ x ∈ keysOf nt ∧ x ∈ ids := by
  simp only [pruneNodes, keysOf, List.mem_map, List.mem_filter]
  constructor
  · rintro ⟨a, ⟨ha, hid⟩, rfl⟩
    exact ⟨⟨a, ha, rfl⟩, by simpa using hid⟩
  · rintro ⟨⟨a, ha, rfl⟩, hid⟩
    exact ⟨a, ⟨ha, by simpa using hid⟩, rfl⟩

theorem endpoint_iff_referenced (d : Int → Int → ℚ) (ways : List Way) (x : Int) :
    (∃ u v wt, (v, wt) ∈ adjOf (buildGraph d ways).2 u ∧ (x = u ∨ x = v))
      ↔ x ∈ (buildGraph d ways).1 := by
  rw [mem_ids_buildGraph]
  constructor
  · rintro ⟨u, v, wt, hmem, hx⟩
    rw [adjOf_buildGraph] at hmem
    unfold specAdj at hmem
    rw [List.mem_flatMap] at hmem
    obtain ⟨w, hw, hmem⟩ := hmem
    rw [List.mem_flatMap] at hmem
    obtain ⟨p, hp, hmem⟩ := hmem
    rw [mem_windowContrib] at hmem
    refine ⟨w, hw, p, hp, ?_⟩
    rcases hmem with ⟨h1, h2, _⟩ | ⟨_, h1, h2, _⟩ <;> rcases hx with rfl | rfl <;>
      subst h2 <;> simp [h1.symm]
  · rintro ⟨w, hw, p, hp, hx⟩
    refine ⟨p.1, p.2, d p.1 p.2, ?_, ?_⟩
    · rw [adjOf_buildGraph]
      unfold specAdj
      rw [List.mem_flatMap]
      refine ⟨w, hw, ?_⟩
      rw [List.mem_flatMap]
      refine ⟨p, hp, ?_⟩
      rw [mem_windowContrib]
      exact Or.inl ⟨rfl, rfl, rfl⟩
    · exact hx


theorem lookupKV_cons_isSome {β : Type} (k x : Int) (v : β) (p : List (Int × β)) :
    (lookupKV ((k, v) :: p) x).isSome = true
      ↔ k = x ∨ (lookupKV p x).isSome = true := by
  by_cases h : k = x <;> simp [lookupKV, h]

theorem relaxAll_queue (dist : ℕ) (cur : Int) (nbrs : List (Int × ℚ)) :
    ∀ (q : List (ℕ × Int)) (p : List (Int × Int)),
      (relaxAll dist cur nbrs q p).1 = q ++ (relaxAll dist cur nbrs q p).2.2 := by
  induction nbrs with
  | nil => intro q p; simp [relaxAll]
  | cons e rest ih =>
    intro q p
    obtain ⟨v, w⟩ := e
    by_cases h : (lookupKV p v).isSome = true
    · simpa [relaxAll, h] using ih q p
    · simp only [relaxAll, Bool.not_eq_true] at h ⊢
      rw [if_neg (by simp [h])]
      simpa [List.append_assoc] using
        ih (q ++ [(dist + millis w, v)]) ((v, cur) :: p)

theorem relaxAll_parent_isSome (dist : ℕ) (cur : Int) (nbrs : List (Int × ℚ)) :
    ∀ (q : List (ℕ × Int)) (p : List (Int × Int)) (x : Int),
      (lookupKV (relaxAll dist cur nbrs q p).2.1 x).isSome = true
        ↔ (lookupKV p x).isSome = true
          ∨ x ∈ (relaxAll dist cur nbrs q p).2.2.map Prod.snd := by
  induction nbrs with
  | nil => intro q p x; simp [relaxAll]
  | cons e rest ih =>
    intro q p x
    obtain ⟨v, w⟩ := e
    by_cases h : (lookupKV p v).isSome = true
    · simpa [relaxAll, h] using ih q p x
    · simp only [relaxAll, h, if_neg, Bool.false_eq_true]
      rw [if_neg (by simp [h])]
      simp only [List.map_cons, List.mem_cons]
      rw [ih]
      rw [lookupKV_cons_isSome]
      tauto

theorem relaxAll_pushes_fresh (dist : ℕ) (cur : Int) (nbrs : List (Int × ℚ)) :
    ∀ (q : List (ℕ × Int)) (p : List (Int × Int)),
      ((relaxAll dist cur nbrs q p).2.2.map Prod.snd).Nodup
      ∧ ∀ x ∈ (relaxAll dist cur nbrs q p).2.2.map Prod.snd,
          (lookupKV p x).isSome = false := by
  induction nbrs with
  | nil => intro q p; simp [relaxAll]
  | cons e rest ih =>
    intro q p
    obtain ⟨v, w⟩ := e
    by_cases h : (lookupKV p v).isSome = true
    · simpa [relaxAll, h] using ih q p
    · simp only [relaxAll]
      rw [if_neg (by simp [h])]
      obtain ⟨ihnd, ihfresh⟩ := ih (q ++ [(dist + millis w, v)]) ((v, cur) :: p)
      simp only [List.map_cons, List.nodup_cons, List.mem_cons]
      refine ⟨⟨?_, ihnd⟩, ?_⟩
      · intro hv
        have := ihfresh v hv
        simp [lookupKV] at this
      · rintro x (rfl | hx)
        · simpa using h
        · have := ihfresh x hx
          rw [lookupKV] at this
          by_cases hvx : v = x
        
          · rw [if_pos hvx] at this
            simp at this
          · rw [if_neg hvx] at this
            exact this

theorem relaxAll_pushes_provenance (dist : ℕ) (cur : Int) (nbrs : List (Int × ℚ)) :
    ∀ (q : List (ℕ × Int)) (p : List (Int × Int)),
      ∀ e ∈ (relaxAll dist cur nbrs q p).2.2,
        ∃ w, (e.2, w) ∈ nbrs ∧ e.1 = dist + millis w := by
  induction nbrs with
  | nil => intro q p; simp [relaxAll]
  | cons nb rest ih =>
    intro q p e
    obtain ⟨v, w⟩ := nb
    by_cases h : (lookupKV p v).isSome = true
    · simp only [relaxAll, if_pos h]
      intro he
      obtain ⟨w2, hw2, he2⟩ := ih q p e he
      exact ⟨w2, List.mem_cons_of_mem _ hw2, he2⟩
    · simp only [relaxAll]
      rw [if_neg (by simp [h])]
      intro he
      rcases List.mem_cons.mp he with rfl | he2
      · exact ⟨w, List.mem_cons_self _ _, rfl⟩
      · obtain ⟨w2, hw2, he3⟩ :=
          ih (q ++ [(dist + millis w, v)]) ((v, cur) :: p) e he2
        exact ⟨w2, List.mem_cons_of_mem _ hw2, he3⟩


theorem popMin_eq_none {q : List (ℕ × Int)} (h : popMin q = none) : q = [] := by
  cases q with
  | nil => rfl
  | cons e rest =>
    exfalso
    unfold popMin findMin at h
    cases hf : findMin rest with
    | none => rw [hf] at h; simp at h
    | some m => rw [hf] at h; by_cases hle : entLe e m = true <;> simp [hle] at h

theorem popMin_some {q : List (ℕ × Int)} {e : ℕ × Int} {rest : List (ℕ × Int)}
    (h : popMin q = some (e, rest)) : rest = removeEntry q e := by
  unfold popMin at h
  cases hf : findMin q with
  | none => rw [hf] at h; simp at h
  | some m =>
    rw [hf] at h
    simp only [Option.some.injEq, Prod.mk.injEq] at h
    rw [← h.1, ← h.2]

theorem removeEntry_mem {l : List (ℕ × Int)} {y m : ℕ × Int}
    (hy : y ∈ l) (hne : y ≠ m) : y ∈ removeEntry l m := by
  induction l with
  | nil => cases hy
  | cons e rest ih =>
    unfold removeEntry
    by_cases he : e = m
    · rw [if_pos he]
      rcases List.mem_cons.mp hy with rfl | h
      · exact absurd he hne
      · exact h
    · rw [if_neg he]
      rcases List.mem_cons.mp hy with rfl | h
      · exact List.mem_cons_self _ _
      · exact List.mem_cons_of_mem _ (ih h)

theorem searchLoop_pushes_fresh (adj : Int → List (Int × ℚ)) (goal : Int) :
    ∀ (fuel : ℕ) (q : List (ℕ × Int)) (p : List (Int × Int)),
      (((searchLoop adj goal fuel q p).pushes.map Prod.snd).Nodup)
      ∧ ∀ x ∈ (searchLoop adj goal fuel q p).pushes.map Prod.snd,
          (lookupKV p x).isSome = false := by
  intro fuel
  induction fuel with
  | zero => intro q p; simp [searchLoop]
  | succ fuel ih =>
    intro q p
    simp only [searchLoop]
    cases hpop : popMin q with
    | none => simp
    | some pr =>
      obtain ⟨e0, rest⟩ := pr
      by_cases hg : e0.2 = goal
      · simp [hg]
      · simp only [hg, if_neg, Bool.false_eq_true, reduceIte]
        simp only [List.map_append, List.mem_append]
        obtain ⟨rnd, rfresh⟩ := relaxAll_pushes_fresh e0.1 e0.2 (adj e0.2) rest p
        obtain ⟨snd, sfresh⟩ :=
          ih (relaxAll e0.1 e0.2 (adj e0.2) rest p).1
             (relaxAll e0.1 e0.2 (adj e0.2) rest p).2.1
        constructor
        · refine List.Nodup.append rnd snd ?_
          intro x hxr hxs
          have h1 := sfresh x hxs
          have h2 := (relaxAll_parent_isSome e0.1 e0.2 (adj e0.2) rest p x).mpr
            (Or.inr hxr)
          rw [h1] at h2
          cases h2
        · rintro x (hxr | hxs)
          · exact rfresh x hxr
          · have h1 := sfresh x hxs
            by_cases h2 : (lookupKV p x).isSome = true
            · have h3 := (relaxAll_parent_isSome e0.1 e0.2 (adj e0.2) rest p x).mpr
                (Or.inl h2)
              rw [h1] at h3
              cases h3
            · simpa using h2

theorem searchLoop_exhausted_unparented (adj : Int → List (Int × ℚ)) (goal : Int) :
    ∀ (fuel : ℕ) (q : List (ℕ × Int)) (p : List (Int × Int)),
      ((lookupKV p goal).isSome = true → goal ∈ q.map Prod.snd) →
      (searchLoop adj goal fuel q p).outcome = SearchOutcome.exhausted →
      (lookupKV (searchLoop adj goal fuel q p).parent goal).isSome = false := by
  intro fuel
  induction fuel with
  | zero =>
    intro q p hinv hout
    simp [searchLoop] at hout
  | succ fuel ih =>
    intro q p hinv
    simp only [searchLoop]
    cases hpop : popMin q with
    | none =>
      intro _
      have hq : q = [] := popMin_eq_none hpop
      subst hq
      by_contra hne
      rw [Bool.not_eq_false] at hne
      have := hinv hne
      simp at this
    | some pr =>
      obtain ⟨e0, rest⟩ := pr
      by_cases hg : e0.2 = goal
      · simp [hg]
      · simp only [hg, if_neg, Bool.false_eq_true, reduceIte]
        apply ih
        intro h2
        rcases (relaxAll_parent_isSome e0.1 e0.2 (adj e0.2) rest p goal).mp h2 with
          hp | hrn
        · have hmem := hinv hp
          obtain ⟨y, hy, hy2⟩ := List.mem_map.mp hmem
          have hyne : y ≠ e0 := by
            intro hcontra
            rw [hcontra] at hy2
            exact hg hy2
          have hyrest : y ∈ rest := by
            rw [popMin_some hpop]
            exact removeEntry_mem hy hyne
          rw [relaxAll_queue, List.map_append, List.mem_append]
          exact Or.inl (List.mem_map.mpr ⟨y, hyrest, hy2⟩)
        · rw [relaxAll_queue, List.map_append, List.mem_append]
          exact Or.inr hrn

theorem searchLoop_pushes_provenance (adj : Int → List (Int × ℚ)) (goal : Int) :
    ∀ (fuel : ℕ) (q : List (ℕ × Int)) (p : List (Int × Int)),
      ∀ e ∈ (searchLoop adj goal fuel q p).pushes,
        ∃ dd u w, (dd, u) ∈ (searchLoop adj goal fuel q p).pops
          ∧ (e.2, w) ∈ adj u ∧ e.1 = dd + millis w := by
  intro fuel
  induction fuel with
  | zero => intro q p; simp [searchLoop]
  | succ fuel ih =>
    intro q p e
    simp only [searchLoop]
    cases hpop : popMin q with
    | none => simp
    | some pr =>
      obtain ⟨e0, rest⟩ := pr
      by_cases hg : e0.2 = goal
      · simp [hg]
      · simp only [hg, if_neg, Bool.false_eq_true, reduceIte]
        simp only [List.mem_append, List.mem_cons]
        rintro (her | hes)
        · obtain ⟨w, hw, hwe⟩ :=
            relaxAll_pushes_provenance e0.1 e0.2 (adj e0.2) rest p e her
          exact ⟨e0.1, e0.2, w, Or.inl (Prod.mk.eta).symm, hw, hwe⟩
        · obtain ⟨dd, u, w, hpop2, hw, hwe⟩ :=
            ih (relaxAll e0.1 e0.2 (adj e0.2) rest p).1
               (relaxAll e0.1 e0.2 (adj e0.2) rest p).2.1 e hes
          exact ⟨dd, u, w, Or.inr hpop2, hw, hwe⟩


theorem lookupKV_eq_of_perm {α β : Type} [DecidableEq α] {l1 l2 : List (α × β)}
    (h : l1.Perm l2) :
    (l1.map Prod.fst).Nodup → ∀ x, lookupKV l1 x = lookupKV l2 x := by
  induction h with
  | nil => intro _ x; rfl
  | cons e h ih =>
    intro nd x
    obtain ⟨k, v⟩ := e
    simp only [List.map_cons, List.nodup_cons] at nd
    by_cases hk : k = x
    · simp [lookupKV, hk]
    · simp only [lookupKV, if_neg hk]
      exact ih nd.2 x
  | swap e1 e2 l =>
    intro nd x
    obtain ⟨k1, v1⟩ := e2
    obtain ⟨k2, v2⟩ := e1
    simp only [List.map_cons, List.nodup_cons, List.mem_cons] at nd
    have hne : ¬(k1 = k2) := fun hc => nd.1 (Or.inl hc)
    by_cases h1 : k1 = x
    · have h2 : ¬(k2 = x) := fun hc => hne (h1.trans hc.symm)
      simp [lookupKV, h1, h2]
    · by_cases h2 : k2 = x
      · simp [lookupKV, h1, h2]
      · simp [lookupKV, h1, h2]
  | trans h1 h2 ih1 ih2 =>
    intro nd x
    rw [ih1 nd x, ih2 (((h1.map Prod.fst).nodup_iff).mp nd) x]

theorem lookupKV_encodeCache (m : AdjMap) (nd : (m.map Prod.fst).Nodup) (x : Int) :
    lookupKV (decodeCache (encodeCache m)) x = lookupKV m x :=
  (lookupKV_eq_of_perm (List.perm_insertionSort _ m).symm nd x).symm

theorem lookupKV_encodeNodes (nt : NodeTable) (nd : (nt.map Prod.fst).Nodup) (x : Int) :
    lookupKV (decodeNodes (encodeNodes nt)) x = lookupKV nt x :=
  (lookupKV_eq_of_perm (List.perm_insertionSort _ nt).symm nd x).symm

theorem adjOf_encodeCache (m : AdjMap) (nd : (m.map Prod.fst).Nodup) :
    adjOf (decodeCache (encodeCache m)) = adjOf m := by
  funext x
  unfold adjOf
  rw [lookupKV_encodeCache m nd x]

theorem walkBack_absent (parent : List (Int × Int)) (source goal : Int) (fuel : ℕ)
    (hne : goal ≠ source) (habs : lookupKV parent goal = none) :
    walkBack parent source (fuel + 1) goal = Except.error WalkErr.panicAbsent := by
  simp [walkBack, hne, habs]

theorem mainSearch_pushes_nodup (adj : Int → List (Int × ℚ)) (source goal : Int)
    (fuel : ℕ) :
    ((mainSearch adj source goal fuel).pushes.map Prod.snd).Nodup := by
  unfold mainSearch
  simp only [List.map_cons]
  obtain ⟨hnd, hfresh⟩ :=
    searchLoop_pushes_fresh adj goal fuel [(0, source)] [(source, -1)]
  refine List.nodup_cons.mpr ⟨?_, hnd⟩
  intro hmem
  have := hfresh source hmem
  simp [lookupKV] at this

theorem mainSearch_exhausted_unparented (adj : Int → List (Int × ℚ))
    (source goal : Int) (fuel : ℕ) (hne : source ≠ goal)
    (hout : (mainSearch adj source goal fuel).outcome = SearchOutcome.exhausted) :
    lookupKV (mainSearch adj source goal fuel).parent goal = none := by
  unfold mainSearch at hout ⊢
  have hinv : (lookupKV [(source, -1)] goal).isSome = true
      → goal ∈ ([((0 : ℕ), source)].map Prod.snd) := by
    intro h
    simp [lookupKV, hne] at h
  have hfin := searchLoop_exhausted_unparented adj goal fuel
    [(0, source)] [(source, -1)] hinv hout
  cases h : lookupKV (searchLoop adj goal fuel [(0, source)] [(source, -1)]).parent goal with
  | none => rfl
  | some v => rw [h] at hfin; simp at hfin


theorem window_edge_mem (d : Int → Int → ℚ) (ways : List Way) (w : Way)
    (p : Int × Int) (hw : w ∈ ways) (hp : p ∈ windows2 w.nodes) :
    (p.2, d p.1 p.2) ∈ adjOf (buildGraph d ways).2 p.1 := by
  rw [adjOf_buildGraph]
  unfold specAdj
  rw [List.mem_flatMap]
  refine ⟨w, hw, ?_⟩
  rw [List.mem_flatMap]
  refine ⟨p, hp, ?_⟩
  rw [mem_windowContrib]
  exact Or.inl ⟨rfl, rfl, rfl⟩

theorem is_cyclable_iff (w : Way) :
    is_cyclable_way w = true ↔
      ((lookupKV w.tags "highway").isSome = true
       ∧ (lookupKV w.tags "surface" = none
          ∨ lookupKV w.tags "surface" = some "paved"
          ∨ lookupKV w.tags "surface" = some "asphalt"
          ∨ lookupKV w.tags "surface" = some "concrete"
          ∨ lookupKV w.tags "surface" = some "paving_stones")
       ∧ ∀ p ∈ INACCESSIBLE_TAGS, lookupKV w.tags p.1 ≠ some p.2) := by
  unfold is_cyclable_way tagContains
  simp only [Bool.and_eq_true, Bool.or_eq_true, Bool.not_eq_true',
    decide_eq_true_eq, List.all_eq_true]
  constructor
  · rintro ⟨⟨hA, hB⟩, hC⟩
    refine ⟨hA, ?_, ?_⟩
    · rcases hB with ((((h | h) | h) | h) | h)
      · left
        cases hs : lookupKV w.tags "surface" with
        | none => rfl
        | some v => rw [hs] at h; simp at h
      · right; left; exact h
      · right; right; left; exact h
      · right; right; right; left; exact h
      · right; right; right; right; exact h
    · intro p hp
      have := hC p hp
      simp only [Bool.not_eq_true', decide_eq_false_iff_not] at this
      exact this
  · rintro ⟨hA, hB, hC⟩
    refine ⟨⟨hA, ?_⟩, ?_⟩
    · rcases hB with h | h | h | h | h
      · left; left; left; left; rw [h]; rfl
      · left; left; left; right; exact h
      · left; left; right; exact h
      · left; right; exact h
      · right; exact h
    · intro p hp
      simp only [Bool.not_eq_true', decide_eq_false_iff_not]
      exact hC p hp

/-- C4: `is_cyclable_way` accepts a way exactly when it has a highway tag,
its surface tag is absent or one of {paved, asphalt, concrete,
paving_stones}, and no tag binding matches the fixed inaccessible
deny-list; a way lacking a highway tag is rejected, `surface=dirt` is
rejected, `highway=residential` with no surface tag is accepted, and
`highway=motorway` is rejected regardless of other tags. -/
theorem claim4_way_filter :
    (∀ w : Way,
      (is_cyclable_way w = true ↔
        ((lookupKV w.tags "highway").isSome = true
         ∧ (lookupKV w.tags "surface" = none
            ∨ lookupKV w.tags "surface" = some "paved"
            ∨ lookupKV w.tags "surface" = some "asphalt"
            ∨ lookupKV w.tags "surface" = some "concrete"
            ∨ lookupKV w.tags "surface" = some "paving_stones")
         ∧ ∀ p ∈ INACCESSIBLE_TAGS, lookupKV w.tags p.1 ≠ some p.2))
      ∧ (lookupKV w.tags "highway" = some "motorway" → is_cyclable_way w = false))
    ∧ is_cyclable_way ⟨[("highway", "residential")], []⟩ = true
    ∧ is_cyclable_way ⟨[("highway", "residential"), ("surface", "dirt")], []⟩ = false
    ∧ is_cyclable_way ⟨[("surface", "asphalt")], []⟩ = false := by
  refine ⟨?_, by decide, by decide, by decide⟩
  intro w
  refine ⟨is_cyclable_iff w, ?_⟩
  intro hmw
  cases hcyc : is_cyclable_way w with
  | false => rfl
  | true =>
    exfalso
    have h := (is_cyclable_iff w).mp hcyc
    have hmem : ("highway", "motorway") ∈ INACCESSIBLE_TAGS := by
      simp [INACCESSIBLE_TAGS]
    exact h.2.2 ("highway", "motorway") hmem hmw

/-- C4 witness: a concrete `highway=motorway` way is rejected, through the
motorway clause of `claim4_way_filter`. -/
theorem claim4_witness :
    is_cyclable_way ⟨[("highway", "motorway"), ("surface", "asphalt")], []⟩ = false :=
  (claim4_way_filter.1 ⟨[("highway", "motorway"), ("surface", "asphalt")], []⟩).2 rfl

/-- C5: the adjacency structure the builder folds up is exactly the
spec-side description: one forward edge per consecutive node pair of each
accepted way, weighted by the great-circle distance, plus the backward
edge unless the way is tagged `oneway=yes`; a way with fewer than two
nodes contributes nothing and duplicate pairs stack as parallel edges
(the equality is between full edge lists, multiplicity included).  In
particular, a two-node way gives both directions without `oneway` and
only the forward direction with `oneway=yes`. -/
theorem claim5_graph_builder :
    (∀ (d : Int → Int → ℚ) (ways : List Way) (x : Int),
      adjOf (buildGraph d ways).2 x = specAdj d ways x)
    ∧ (∀ (d : Int → Int → ℚ) (a b : Int),
        (a ≠ b → adjOf (buildGraph d [⟨[], [a, b]⟩]).2 a = [(b, d a b)])
        ∧ (a ≠ b → adjOf (buildGraph d [⟨[], [a, b]⟩]).2 b = [(a, d a b)])
        ∧ adjOf (buildGraph d [⟨[("oneway", "yes")], [a, b]⟩]).2 a = [(b, d a b)]
        ∧ (a ≠ b → adjOf (buildGraph d [⟨[("oneway", "yes")], [a, b]⟩]).2 b = [])) := by
  refine ⟨adjOf_buildGraph, ?_⟩
  intro d a b
  refine ⟨?_, ?_, ?_, ?_⟩
  · intro hab
    have hba : ¬(b = a) := fun h => hab h.symm
    rw [adjOf_buildGraph]
    simp [specAdj, windows2, windowContrib, isBidirectional, tagContains, lookupKV, hab, hba]
  · intro hab
    have hba : ¬(b = a) := fun h => hab h.symm
    rw [adjOf_buildGraph]
    simp [specAdj, windows2, windowContrib, isBidirectional, tagContains, lookupKV, hab, hba]
  · rw [adjOf_buildGraph]
    by_cases hab : a = b <;>
      simp [specAdj, windows2, windowContrib, isBidirectional, tagContains, lookupKV, hab]
  · intro hab
    have hba : ¬(b = a) := fun h => hab h.symm
    rw [adjOf_buildGraph]
    simp [specAdj, windows2, windowContrib, isBidirectional, tagContains, lookupKV, hab, hba]

/-- C5 witness: the two-node-way clauses of `claim5_graph_builder` at the
concrete way 7-8 with the constant distance function. -/
theorem claim5_witness :
    ((7 : Int) ≠ 8)
    ∧ adjOf (buildGraph d0 [⟨[], [7, 8]⟩]).2 8 = [(7, d0 7 8)]
    ∧ adjOf (buildGraph d0 [⟨[("oneway", "yes")], [7, 8]⟩]).2 8 = [] :=
  ⟨by decide, (claim5_graph_builder.2 d0 7 8).2.1 (by decide),
   (claim5_graph_builder.2 d0 7 8).2.2.2 (by decide)⟩

/-- C6: assuming every node referenced by an accepted way is present in
the raw node table (the program indexes the table and would panic
otherwise), the pruned node table keys are exactly the identifiers that
are an endpoint of some retained edge, and every adjacency key and every
neighbor target is present in the pruned table. -/
theorem claim6_pruned_nodes :
    ∀ (d : Int → Int → ℚ) (ways : List Way) (nt : NodeTable),
    (∀ x, (∃ w ∈ ways, ∃ p ∈ windows2 w.nodes, x = p.1 ∨ x = p.2) → x ∈ keysOf nt) →
    (∀ x, x ∈ keysOf (pruneNodes nt (buildGraph d ways).1)
        ↔ ∃ u v wt, (v, wt) ∈ adjOf (buildGraph d ways).2 u ∧ (x = u ∨ x = v))
    ∧ (∀ u, u ∈ keysOf (buildGraph d ways).2
        → u ∈ keysOf (pruneNodes nt (buildGraph d ways).1))
    ∧ (∀ u v wt, (v, wt) ∈ adjOf (buildGraph d ways).2 u
        → v ∈ keysOf (pruneNodes nt (buildGraph d ways).1)) := by
  intro d ways nt hnt
  have hiff : ∀ x, x ∈ keysOf (pruneNodes nt (buildGraph d ways).1)
      ↔ x ∈ (buildGraph d ways).1 := by
    intro x
    rw [mem_keys_pruneNodes]
    constructor
    · rintro ⟨_, h⟩
      exact h
    · intro h
      exact ⟨hnt x ((mem_ids_buildGraph d ways x).mp h), h⟩
  refine ⟨?_, ?_, ?_⟩
  · intro x
    rw [hiff, ← endpoint_iff_referenced]
  · intro u hu
    rw [hiff u, ← endpoint_iff_referenced]
    rcases (mem_keys_buildGraph d ways u).mp hu with ⟨w, hw, p, hp, hcase⟩
    refine ⟨p.1, p.2, d p.1 p.2, window_edge_mem d ways w p hw hp, ?_⟩
    rcases hcase with h | ⟨_, h⟩
    · exact Or.inl h
    · exact Or.inr h
  · intro u v wt hmem
    rw [hiff v, ← endpoint_iff_referenced]
    exact ⟨u, v, wt, hmem, Or.inr rfl⟩

/-- C6 witness: on the concrete way list and node table, node 7 (an edge
endpoint) survives pruning, via `claim6_pruned_nodes`. -/
theorem claim6_witness :
    (7 : Int) ∈ keysOf (pruneNodes nt1 (buildGraph d0 ways1).1) := by
  have hnt : ∀ x, (∃ w ∈ ways1, ∃ p ∈ windows2 w.nodes, x = p.1 ∨ x = p.2)
      → x ∈ keysOf nt1 := by
    intro x hx
    obtain ⟨w, hw, p, hp, hx⟩ := hx
    simp only [ways1, List.mem_singleton] at hw
    subst hw
    simp only [windows2, List.mem_singleton] at hp
    subst hp
    rcases hx with rfl | rfl <;> simp [nt1, keysOf]
  exact (claim6_pruned_nodes d0 ways1 nt1 hnt).2.1 7 (by decide)


/-- C1: evidence that the search is not Dijkstra.  On the concrete graph
`cexAdj` (edges 0→1 of 1 m, 0→2 of 10 m, 1→2 of 1 m, 2→3 of 1 m) the
search reaches goal 3 at 11000 mm along the recorded predecessor path
[0, 2, 3], yet the path [0, 1, 2, 3] costs 3000 mm — the predecessor map
does not record shortest distances, because a predecessor entry is
written at push time and later shorter reaching attempts are skipped. -/
theorem claim1_first_touch_not_minimal :
    (mainSearch cexAdj 0 3 10).outcome = SearchOutcome.goalReached 11000
    ∧ walkBack (mainSearch cexAdj 0 3 10).parent 0 10 3 = Except.ok [0, 2, 3]
    ∧ pathCost cexAdj [0, 2, 3] = some 11000
    ∧ pathCost cexAdj [0, 1, 2, 3] = some 3000
    ∧ 3000 < 11000 := by
  refine ⟨by decide, by decide, by decide, by decide, by decide⟩

/-- C2 counterexample: on the concrete disconnected graph `adjDisc` with
source 0 and goal 5 the frontier empties, and the unconditional
reconstruction walk then reads the absent parent entry of the goal — the
modelled `parent[&cur_id]` panic — instead of reporting a NoRouteFound
failure before reconstruction. -/
theorem claim2_counterexample :
    (mainSearch adjDisc 0 5 10).outcome = SearchOutcome.exhausted
    ∧ walkBack (mainSearch adjDisc 0 5 10).parent 0 10 5
        = Except.error WalkErr.panicAbsent := by
  refine ⟨by decide, by decide⟩

/-- C2 amended: whenever the frontier empties before the goal is popped
(and source ≠ goal), the goal has no predecessor entry, and the
reconstruction walk — which is attempted unconditionally — immediately
panics on that absent entry; no NoRouteFound outcome is reported before
reconstruction. -/
theorem claim2_amended :
    ∀ (adj : Int → List (Int × ℚ)) (source goal : Int) (fuel fuel2 : ℕ),
    source ≠ goal →
    (mainSearch adj source goal fuel).outcome = SearchOutcome.exhausted →
    lookupKV (mainSearch adj source goal fuel).parent goal = none
    ∧ walkBack (mainSearch adj source goal fuel).parent source (fuel2 + 1) goal
        = Except.error WalkErr.panicAbsent := by
  intro adj source goal fuel fuel2 hne hout
  have habs := mainSearch_exhausted_unparented adj source goal fuel hne hout
  exact ⟨habs, walkBack_absent _ _ _ _ (fun h => hne h.symm) habs⟩

/-- C2 witness: `claim2_amended` instantiated on the concrete
disconnected graph. -/
theorem claim2_witness :
    lookupKV (mainSearch adjDisc 0 5 10).parent 5 = none
    ∧ walkBack (mainSearch adjDisc 0 5 10).parent 0 (3 + 1) 5
        = Except.error WalkErr.panicAbsent :=
  claim2_amended adjDisc 0 5 10 3 (by decide) (by decide)

/-- C3 refutation: there is no graph, source, goal and fuel for which
some node is pushed into the frontier more than once — the nodes pushed
(the seed included) are always pairwise distinct, so no duplicate entry
ever exists and no pop is ever discarded as stale. -/
theorem claim3_counterexample :
    ¬ ∃ (adj : Int → List (Int × ℚ)) (source goal : Int) (fuel : ℕ) (v : Int),
        2 ≤ ((mainSearch adj source goal fuel).pushes.map Prod.snd).count v := by
  rintro ⟨adj, source, goal, fuel, v, hc⟩
  have h := List.nodup_iff_count_le_one.mp
    (mainSearch_pushes_nodup adj source goal fuel) v
  exact absurd (le_trans hc h) (by decide)

/-- C3 amended: the search does not use the lazy-deletion pattern — each
node enters the frontier at most once, because the predecessor map doubles
as a visited set consulted before every push, so there are never
duplicate frontier entries to discard. -/
theorem claim3_amended :
    ∀ (adj : Int → List (Int × ℚ)) (source goal : Int) (fuel : ℕ) (v : Int),
      ((mainSearch adj source goal fuel).pushes.map Prod.snd).count v ≤ 1 := by
  intro adj source goal fuel v
  exact List.nodup_iff_count_le_one.mp (mainSearch_pushes_nodup adj source goal fuel) v

/-- C7: every frontier entry pushed by the loop body has key
`poppedDistance + (round (weightMeters * 1000)).toNat` for an edge of the
popped node — the meter-to-millimeter conversion happens at push time and
the cumulative distance is an unsigned integer sum of those increments —
while the persisted cache artifact holds exactly the raw meter-weighted
bindings (a permutation of the map, weights untouched). -/
theorem claim7_millimeter_conversion :
    (∀ (adj : Int → List (Int × ℚ)) (goal : Int) (fuel : ℕ)
       (q : List (ℕ × Int)) (p : List (Int × Int)),
      ∀ e ∈ (searchLoop adj goal fuel q p).pushes,
        ∃ dd u w, (dd, u) ∈ (searchLoop adj goal fuel q p).pops
          ∧ (e.2, w) ∈ adj u ∧ e.1 = dd + (round (w * 1000)).toNat)
    ∧ (∀ m : AdjMap, (encodeCache m).Perm m) := by
  constructor
  · intro adj goal fuel q p e he
    obtain ⟨dd, u, w, h1, h2, h3⟩ :=
      searchLoop_pushes_provenance adj goal fuel q p e he
    exact ⟨dd, u, w, h1, h2, by rw [h3, millis_eq_round]⟩
  · intro m
    exact List.perm_insertionSort _ m

/-- C7 witness: the entry (1000, 1) pushed during the concrete search on
`cexAdj` has the claimed provenance, via `claim7_millimeter_conversion`. -/
theorem claim7_witness :
    ((1000, (1 : Int)) ∈ (searchLoop cexAdj 3 10 [(0, 0)] [(0, -1)]).pushes)
    ∧ (∃ dd u w, (dd, u) ∈ (searchLoop cexAdj 3 10 [(0, 0)] [(0, -1)]).pops
        ∧ (((1000, (1 : Int)).2, w) ∈ cexAdj u
        ∧ (1000, (1 : Int)).1 = dd + (round (w * 1000)).toNat))
    ∧ (encodeCache [(0, [(1, 1)])]).Perm [(0, [(1, 1)])] :=
  ⟨by decide,
   claim7_millimeter_conversion.1 cexAdj 3 10 [(0, 0)] [(0, -1)] (1000, 1) (by decide),
   claim7_millimeter_conversion.2 [(0, [(1, 1)])]⟩

/-- C8: for any adjacency map and node table with distinct keys (as the
builder produces), the persisted-and-reloaded cache looks up identically
to the freshly built values, and searching and walking the reloaded graph
gives results identical to the fresh one. -/
theorem claim8_cache_roundtrip :
    ∀ (m : AdjMap) (nt : NodeTable) (source goal : Int) (fuel fuel2 : ℕ),
    (m.map Prod.fst).Nodup → (nt.map Prod.fst).Nodup →
    adjOf (decodeCache (encodeCache m)) = adjOf m
    ∧ (∀ x, lookupKV (decodeNodes (encodeNodes nt)) x = lookupKV nt x)
    ∧ mainSearch (adjOf (decodeCache (encodeCache m))) source goal fuel
        = mainSearch (adjOf m) source goal fuel
    ∧ walkBack
        (mainSearch (adjOf (decodeCache (encodeCache m))) source goal fuel).parent
        source fuel2 goal
      = walkBack (mainSearch (adjOf m) source goal fuel).parent source fuel2 goal := by
  intro m nt source goal fuel fuel2 ndm ndn
  have hadj := adjOf_encodeCache m ndm
  refine ⟨hadj, lookupKV_encodeNodes nt ndn, ?_, ?_⟩
  · rw [hadj]
  · rw [hadj]

/-- C8 witness: `claim8_cache_roundtrip` instantiated on a concrete
one-edge map and the concrete node table. -/
theorem claim8_witness :
    mainSearch (adjOf (decodeCache (encodeCache [(0, [(1, 1)])]))) 0 1 5
      = mainSearch (adjOf [(0, [(1, 1)])]) 0 1 5 :=
  (claim8_cache_roundtrip [(0, [(1, 1)])] nt1 0 1 5 5 (by decide) (by decide)).2.2.1

/-- C9: evidence on the fetch-failure model.  When the remote GET fails
before any byte is written (no file exists), the `fs::remove_file` cleanup
itself fails and its NotFound error — not the fetch failure — is the one
propagated; when a partial file does exist (copy failed midway), it is
removed and the original download error is propagated. -/
theorem claim9_fetch_error :
    fetchStep false FetchOutcome.reqError
      = (false, Except.error FetchErr.removeNotFound)
    ∧ FetchErr.removeNotFound ≠ FetchErr.fetchFailed
    ∧ fetchStep false FetchOutcome.copyError
      = (false, Except.error FetchErr.writeFailed) := by
  refine ⟨by decide, by decide, by decide⟩

/-- C10: a way whose `oneway` tag has any value other than "yes" is
processed exactly as if it had no `oneway` tag at all — both directions
are inserted for every consecutive pair. -/
theorem claim10_oneway_values :
    ∀ (d : Int → Int → ℚ) (s : List Int × AdjMap) (tags : Tags)
      (ns : List Int) (v : String),
    lookupKV tags "oneway" = some v → v ≠ "yes" →
    buildWay d s ⟨tags, ns⟩
      = buildWay d s ⟨tags.filter (fun p => decide (p.1 ≠ "oneway")), ns⟩ := by
  intro d s tags ns v hv hne
  have h1 : isBidirectional tags = true := by
    unfold isBidirectional tagContains
    rw [hv]
    simp [hne]
  have h2 : isBidirectional (tags.filter (fun p => decide (p.1 ≠ "oneway"))) = true := by
    unfold isBidirectional tagContains
    rw [lookupKV_filter_ne]
    simp
  show (windows2 ns).foldl (buildStep d (isBidirectional tags)) s
      = (windows2 ns).foldl
          (buildStep d (isBidirectional (tags.filter (fun p => decide (p.1 ≠ "oneway"))))) s
  rw [h1, h2]

/-- C10 witness: `claim10_oneway_values` on a concrete `oneway=true` way. -/
theorem claim10_witness :
    buildWay d0 ([], []) ⟨[("oneway", "true")], [6, 7]⟩
      = buildWay d0 ([], [])
          ⟨([("oneway", "true")] : Tags).filter (fun p => decide (p.1 ≠ "oneway")), [6, 7]⟩ :=
  claim10_oneway_values d0 ([], []) [("oneway", "true")] [6, 7] "true"
    (by decide) (by decide)

end ReadOsm
